import Mathlib

/-!
Shallow embedding of the NLTK-based tokenizer adapter (tokenization_nltk.py).

Python dicts are modelled as insertion-ordered association lists with
update-in-place semantics, matching CPython dict behaviour.  Python `None`
results are modelled with `Option`.  External collaborators (the NLTK word
splitter, the host framework's added-tokens registry) are parameters.
-/

namespace NlktTokenizer

/-- Characters treated as whitespace by Python str.strip (the ASCII subset,
which is all the development needs). -/
def isPythonWs (c : Char) : Bool :=
  c = ' ' || c = '\t' || c = '\n' || c = '\x0b' || c = '\x0c' || c = '\r'

/-- Remove leading and trailing whitespace from a character list, as Python
str.strip does. -/
def stripChars (cs : List Char) : List Char :=
  ((cs.dropWhile isPythonWs).reverse.dropWhile isPythonWs).reverse

/-- Python str.strip on strings. -/
def pythonStrip (s : String) : String := ⟨stripChars s.data⟩

/-- Python dict membership test, for a dict modelled as an insertion-ordered
association list. -/
def dictContains {α β : Type} [BEq α] (d : List (α × β)) (k : α) : Bool :=
  d.any (fun p => p.1 == k)

/-- Python d.get k: value of the entry with key k, none when absent. -/
def dictGet {α β : Type} [BEq α] (d : List (α × β)) (k : α) : Option β :=
  (d.find? (fun p => p.1 == k)).map Prod.snd

/-- Python dict assignment: update in place when the key exists, otherwise
append, preserving insertion order. -/
def dictInsert {α β : Type} [BEq α] (d : List (α × β)) (k : α) (v : β) :
    List (α × β) :=
  if dictContains d k then d.map (fun p => if p.1 == k then (k, v) else p)
  else d ++ [(k, v)]

/-- Recursion through the dict comprehension of __init__, line 62: insert each
line's stripped content with its zero-based line number. -/
def buildVocabAux : List (String × Nat) → Nat → List String → List (String × Nat)
  | d, _, [] => d
  | d, i, l :: ls => buildVocabAux (dictInsert d (pythonStrip l) i) (i + 1) ls

/-- Line 62: self.vocab built from the vocabulary file's lines, each line
stripped and mapped to its zero-based line number; later duplicates update
the earlier entry's value in place. -/
def buildVocab (lines : List String) : List (String × Nat) :=
  buildVocabAux [] 0 lines

/-- Line 63: self.id_to_token, the reverse dict built by swapping each
(token, id) pair of self.vocab in insertion order. -/
def buildReverse (vocab : List (String × Nat)) : List (Nat × String) :=
  vocab.foldl (fun d p => dictInsert d p.2 p.1) []

/-- Python substring test (token in text). -/
def strContains (s pat : String) : Bool :=
  pat.isEmpty || (s.splitOn pat).length != 1

/-- Line 84: the unique placeholder for the idx-th special token. -/
def specialPlaceholder (idx : Nat) : String :=
  " __SPECIAL" ++ toString idx ++ "__ "

/-- Lines 65-91: _tokenize.  The external word splitter (nltk word_tokenize)
is the abstract parameter wt.  Each special token occurring in the text is
replaced by a spaced placeholder, the splitter runs, and placeholders are
mapped back to the original special tokens. -/
def tokenizeRaw (wt : String → List String) (eos : String) (text : String) :
    List String :=
  let special_tokens := [eos, "<end_of_text>"]
  let res := special_tokens.enum.foldl
    (fun (acc : String × List (String × String)) it =>
      if strContains acc.1 it.2 then
        (acc.1.replace it.2 (specialPlaceholder it.1),
         dictInsert acc.2 (pythonStrip (specialPlaceholder it.1)) it.2)
      else acc)
    (text, [])
  (wt res.1).map (fun tok => (dictGet res.2 tok).getD tok)

/-- Lines 93-116: tokenize.  When add_special_tokens is set, the eos token is
inserted at the front when absent from the token list, then the end-of-text
token is appended when absent from the (possibly already extended) list. -/
def tokenize (wt : String → List String) (eos : String) (text : String)
    (add_special_tokens : Bool) : List String :=
  let tokens := tokenizeRaw wt eos text
  if add_special_tokens then
    let t1 := if eos ∈ tokens then tokens else eos :: tokens
    if "<end_of_text>" ∈ t1 then t1 else t1 ++ ["<end_of_text>"]
  else tokens

/-- Line 130: vocab.get(token, ...) + 1 when the token is a key of the vocab,
otherwise vocab.get of the unknown token (a Python None, modelled none, when
that entry is absent). -/
def _convert_token_to_id (vocab : List (String × Nat)) (token : String) :
    Option Nat :=
  if dictContains vocab token then (dictGet vocab token).map (fun v => v + 1)
  else dictGet vocab "[UNK]"

/-- Python-int lookup into the Nat-keyed reverse vocabulary. -/
def dictGetI (d : List (Nat × String)) (k : Int) : Option String :=
  (d.find? (fun p => (p.1 : Int) == k)).map Prod.snd

/-- Lines 144-145: look up index - 1 in the reverse vocabulary, defaulting to
the literal unknown-token string. -/
def _convert_id_to_token (rev : List (Nat × String)) (index : Int) : String :=
  (dictGetI rev (index - 1)).getD "[UNK]"

/-- Line 152: the number of entries of self.vocab. -/
def vocab_size (vocab : List (String × Nat)) : Nat := vocab.length

/-- Lines 171-173: the lines written to the saved vocabulary file, one key of
self.vocab per line in insertion order (the newline terminators are the line
separators of the file and are not part of the line contents). -/
def save_vocabulary (vocab : List (String × Nat)) : List String :=
  vocab.map Prod.fst

/-- Lines 176-186: get_vocab.  The base view maps _convert_id_to_token (i+1)
to i for i below vocab_size; then each entry (token, i) of the host
framework's added-tokens registry is overlaid with value i + length of the
base view. -/
def get_vocab (vocab : List (String × Nat)) (rev : List (Nat × String))
    (added : List (String × Nat)) : List (String × Nat) :=
  let base := (List.range (vocab_size vocab)).foldl
    (fun d (i : Nat) => dictInsert d (_convert_id_to_token rev ((i : Int) + 1)) i) []
  added.foldl (fun d p => dictInsert d p.1 (p.2 + base.length)) base

/-- Pairs each element of a list with a consecutive index starting at i
(used to state what the dict-building code produces). -/
def enumPairs (i : Nat) : List String → List (String × Nat)
  | [] => []
  | t :: ts => (t, i) :: enumPairs (i + 1) ts

/-- Strip of trailing whitespace only, following the claim wording, for
comparison with the source's two-sided strip. -/
def stripTrailing (s : String) : String :=
  ⟨(s.data.reverse.dropWhile isPythonWs).reverse⟩

/-- Observable side effects of an operation. -/
inductive Effect where
  | downloadResource : String → Effect
  | readFile : String → Effect
  | writeFile : String → Effect
deriving DecidableEq

/-- The in-memory state the tokenizer object owns: self.vocab,
self.id_to_token, and the configured eos token. -/
structure TokState where
  vocab : List (String × Nat)
  id_to_token : List (Nat × String)
  eos_token : String
deriving DecidableEq

/-- tokenize as a stateful operation: its result, the effects it performs
(line 78 calls nltk.download on every invocation), and the state it leaves. -/
def tokenizeOp (wt : String → List String) (s : TokState) (text : String)
    (add_special_tokens : Bool) : (List String × List Effect) × TokState :=
  ((tokenize wt s.eos_token text add_special_tokens,
    [Effect.downloadResource "punkt"]), s)

/-- _convert_token_to_id as a stateful operation. -/
def convert_token_to_idOp (s : TokState) (token : String) :
    (Option Nat × List Effect) × TokState :=
  ((_convert_token_to_id s.vocab token, []), s)

/-- _convert_id_to_token as a stateful operation. -/
def convert_id_to_tokenOp (s : TokState) (index : Int) :
    (String × List Effect) × TokState :=
  ((_convert_id_to_token s.id_to_token index, []), s)

/-- vocab_size as a stateful operation. -/
def vocab_sizeOp (s : TokState) : (Nat × List Effect) × TokState :=
  ((vocab_size s.vocab, []), s)

/-- get_vocab as a stateful operation. -/
def get_vocabOp (s : TokState) (added : List (String × Nat)) :
    (List (String × Nat) × List Effect) × TokState :=
  ((get_vocab s.vocab s.id_to_token added, []), s)

/-! Helper lemmas about the dict model. -/

theorem dictContains_append_single {α β : Type} [BEq α] (d : List (α × β)) (k k' : α) (v : β) :
    dictContains (d ++ [(k, v)]) k' = (dictContains d k' || (k == k')) := by
  simp [dictContains, List.any_append]

theorem dictInsert_of_not_contains {α β : Type} [BEq α] {d : List (α × β)} {k : α} (v : β)
    (h : dictContains d k = false) : dictInsert d k v = d ++ [(k, v)] := by
  simp [dictInsert, h]

theorem dictContains_eq_isSome {α β : Type} [BEq α] (d : List (α × β)) (k : α) :
    dictContains d k = (dictGet d k).isSome := by
  induction d with
  | nil => rfl
  | cons p d ih =>
    cases hb : p.1 == k
    · simpa [dictContains, dictGet, List.any_cons, List.find?_cons, hb] using ih
    · simp [dictContains, dictGet, List.any_cons, List.find?_cons, hb]

theorem dictGet_cons {α β : Type} [BEq α] [LawfulBEq α] [DecidableEq α] (a : α) (b : β)
    (d : List (α × β))
    (k : α) : dictGet ((a, b) :: d) k = if a = k then some b else dictGet d k := by
  by_cases h : a = k
  · subst h; simp [dictGet, List.find?_cons]
  · simp [dictGet, List.find?_cons, h]

theorem dictGetI_cons (a : Nat) (b : String) (d : List (Nat × String)) (k : Int) :
    dictGetI ((a, b) :: d) k = if (a : Int) = k then some b else dictGetI d k := by
  by_cases h : (a : Int) = k
  · simp [dictGetI, List.find?_cons, h]
  · simp [dictGetI, List.find?_cons, h]

/-! Helper lemmas about Python strip. -/

theorem dropWhile_eq_self_of_front {α : Type} {p : α → Bool} {l l' : List α}
    (h : l.dropWhile p = l) (hp : l' <+: l) : l'.dropWhile p = l' := by
  cases l' with
  | nil => rfl
  | cons x t =>
    obtain ⟨r, hr⟩ := hp
    subst hr
    rw [List.cons_append] at h
    rw [List.dropWhile_cons] at h
    rw [List.dropWhile_cons]
    by_cases hx : p x = true
    · rw [if_pos hx] at h
      have hle := (List.dropWhile_suffix (l := t ++ r) p).length_le
      rw [h] at hle
      simp at hle
    · rw [if_neg hx]

theorem stripChars_idem (cs : List Char) :
    stripChars (stripChars cs) = stripChars cs := by
  show stripChars ((cs.dropWhile isPythonWs).rdropWhile isPythonWs)
      = (cs.dropWhile isPythonWs).rdropWhile isPythonWs
  show (((cs.dropWhile isPythonWs).rdropWhile isPythonWs).dropWhile
      isPythonWs).rdropWhile isPythonWs = _
  have hpre := List.rdropWhile_prefix isPythonWs (cs.dropWhile isPythonWs)
  rw [dropWhile_eq_self_of_front (List.dropWhile_idempotent _ _) hpre,
    List.rdropWhile_idempotent]

theorem pythonStrip_idem (s : String) : pythonStrip (pythonStrip s) = pythonStrip s :=
  congrArg String.mk (stripChars_idem s.data)

theorem map_strip_strip (lines : List String) :
    (lines.map pythonStrip).map pythonStrip = lines.map pythonStrip := by
  induction lines with
  | nil => rfl
  | cons l ls ih => simp [pythonStrip_idem, ih]

/-! Helper lemmas about enumPairs. -/

theorem enumPairs_cons (i : Nat) (t : String) (ts : List String) :
    enumPairs i (t :: ts) = (t, i) :: enumPairs (i + 1) ts := rfl

theorem enumPairs_length (i : Nat) (ls : List String) :
    (enumPairs i ls).length = ls.length := by
  induction ls generalizing i with
  | nil => rfl
  | cons t ts ih => simp [enumPairs_cons, ih]

theorem enumPairs_map_fst (i : Nat) (ls : List String) :
    (enumPairs i ls).map Prod.fst = ls := by
  induction ls generalizing i with
  | nil => rfl
  | cons t ts ih => simp [enumPairs_cons, ih]

theorem enumPairs_map_snd (i : Nat) (ls : List String) :
    (enumPairs i ls).map Prod.snd = List.range' i ls.length := by
  induction ls generalizing i with
  | nil => rfl
  | cons t ts ih => simp [enumPairs_cons, ih, List.range'_succ]

theorem dictGet_enumPairs_get (i : Nat) (ls : List String) (h : ls.Nodup)
    (j : Nat) (hj : j < ls.length) :
    dictGet (enumPairs i ls) (ls.get ⟨j, hj⟩) = some (i + j) := by
  induction ls generalizing i j with
  | nil => simp at hj
  | cons x ts ih =>
    rcases j with _ | j
    · rw [enumPairs_cons, dictGet_cons, if_pos (show x = (x :: ts).get ⟨0, hj⟩ from rfl)]
      simp
    · rw [List.get_cons_succ, enumPairs_cons, dictGet_cons, if_neg, ih (i + 1)
        (List.nodup_cons.mp h).2 j (by simpa using hj)]
      · congr 1
        omega
      · intro he
        exact (List.nodup_cons.mp h).1 (he ▸ List.get_mem ts _ _)

theorem dictGet_enumPairs_some (i : Nat) (ls : List String) (t : String) (v : Nat)
    (h : dictGet (enumPairs i ls) t = some v) :
    ∃ j, ∃ hj : j < ls.length, v = i + j ∧ ls.get ⟨j, hj⟩ = t := by
  induction ls generalizing i with
  | nil => simp [enumPairs, dictGet] at h
  | cons x ts ih =>
    rw [enumPairs_cons, dictGet_cons] at h
    by_cases hx : x = t
    · rw [if_pos hx] at h
      have hv := Option.some.inj h
      exact ⟨0, by simp, by omega, hx⟩
    · rw [if_neg hx] at h
      obtain ⟨j, hj, hv, hg⟩ := ih (i + 1) h
      refine ⟨j + 1, by simpa using hj, by omega, ?_⟩
      rw [List.get_cons_succ]
      exact hg

theorem dictContains_enumPairs_false (i : Nat) (ls : List String) (t : String)
    (h : t ∉ ls) : dictContains (enumPairs i ls) t = false := by
  induction ls generalizing i with
  | nil => rfl
  | cons x ts ih =>
    have hx : ¬(x == t) := by
      simp only [beq_iff_eq]
      exact fun he => h (he ▸ List.mem_cons_self x ts)
    show ((x == t) || dictContains (enumPairs (i + 1) ts) t) = false
    rw [ih (i + 1) (fun hm => h (List.mem_cons_of_mem _ hm)),
      Bool.eq_false_iff.mpr hx]
    rfl

/-! Core characterization of vocabulary construction for duplicate-free files. -/

theorem buildVocabAux_eq (ls : List String) : ∀ (i : Nat) (d : List (String × Nat)),
    (ls.map pythonStrip).Nodup →
    (∀ l ∈ ls, dictContains d (pythonStrip l) = false) →
    buildVocabAux d i ls = d ++ enumPairs i (ls.map pythonStrip) := by
  induction ls with
  | nil => intro i d _ _; simp [buildVocabAux, enumPairs]
  | cons l ls ih =>
    intro i d hnd hd
    have hnd' : (pythonStrip l :: ls.map pythonStrip).Nodup := by simpa using hnd
    show buildVocabAux (dictInsert d (pythonStrip l) i) (i + 1) ls = _
    rw [dictInsert_of_not_contains _ (hd l (List.mem_cons_self _ _))]
    rw [ih (i + 1) (d ++ [(pythonStrip l, i)]) (List.nodup_cons.mp hnd').2 ?_]
    · simp [enumPairs_cons]
    · intro l' hl'
      rw [dictContains_append_single]
      have h1 := hd l' (List.mem_cons_of_mem _ hl')
      have h2 : ¬(pythonStrip l == pythonStrip l') := by
        simp only [beq_iff_eq]
        intro he
        exact (List.nodup_cons.mp hnd').1 (he ▸ List.mem_map_of_mem pythonStrip hl')
      rw [h1, Bool.eq_false_iff.mpr h2]
      rfl

theorem buildVocab_eq (lines : List String) (h : (lines.map pythonStrip).Nodup) :
    buildVocab lines = enumPairs 0 (lines.map pythonStrip) := by
  rw [buildVocab, buildVocabAux_eq lines 0 [] h (fun l _ => rfl)]
  rfl

/-! The reverse vocabulary of a duplicate-free vocabulary. -/

theorem foldl_swapInsert_eq (vocab : List (String × Nat)) :
    ∀ d : List (Nat × String),
    (vocab.map Prod.snd).Nodup →
    (∀ p ∈ vocab, dictContains d p.2 = false) →
    vocab.foldl (fun d p => dictInsert d p.2 p.1) d = d ++ vocab.map Prod.swap := by
  induction vocab with
  | nil => intro d _ _; simp
  | cons q vs ih =>
    intro d hnd hd
    rcases q with ⟨t, v⟩
    have hnd' : (v :: vs.map Prod.snd).Nodup := by simpa using hnd
    show vs.foldl _ (dictInsert d v t) = _
    rw [dictInsert_of_not_contains _ (hd (t, v) (List.mem_cons_self _ _))]
    rw [ih (d ++ [(v, t)]) (List.nodup_cons.mp hnd').2 ?_]
    · simp [Prod.swap]
    · intro p hp
      rw [dictContains_append_single]
      have h1 := hd p (List.mem_cons_of_mem _ hp)
      have h2 : ¬(v == p.2) := by
        simp only [beq_iff_eq]
        intro he
        exact (List.nodup_cons.mp hnd').1 (he ▸ List.mem_map_of_mem Prod.snd hp)
      rw [h1, Bool.eq_false_iff.mpr h2]
      rfl

theorem buildReverse_enumPairs (i : Nat) (ls : List String) :
    buildReverse (enumPairs i ls) = (enumPairs i ls).map Prod.swap := by
  rw [buildReverse, foldl_swapInsert_eq _ [] ?_ (fun p _ => rfl)]
  · simp
  · rw [enumPairs_map_snd]
    exact List.nodup_range' i ls.length

/-! Lookup lemmas for the swapped reverse vocabulary. -/

theorem dictGetI_neg (d : List (Nat × String)) (k : Int) (h : k < 0) :
    dictGetI d k = none := by
  induction d with
  | nil => rfl
  | cons p d ih =>
    rcases p with ⟨a, b⟩
    rw [dictGetI_cons, if_neg, ih]
    intro he
    omega

theorem dictGetI_swap_get (i : Nat) (ls : List String) (j : Nat) (hj : j < ls.length) :
    dictGetI ((enumPairs i ls).map Prod.swap) ((i + j : Nat) : Int)
      = some (ls.get ⟨j, hj⟩) := by
  induction ls generalizing i j with
  | nil => simp at hj
  | cons x ts ih =>
    show dictGetI ((i, x) :: (enumPairs (i + 1) ts).map Prod.swap) _ = _
    rcases j with _ | j
    · rw [dictGetI_cons, if_pos (by omega)]
      rfl
    · rw [List.get_cons_succ, dictGetI_cons, if_neg (by omega)]
      have harith : i + (j + 1) = (i + 1) + j := by omega
      rw [harith]
      exact ih (i + 1) j (by simpa using hj)

theorem dictGetI_swap_none (i : Nat) (ls : List String) (k : Int)
    (h : k < (i : Int) ∨ ((i : Int) + ls.length) ≤ k) :
    dictGetI ((enumPairs i ls).map Prod.swap) k = none := by
  induction ls generalizing i with
  | nil => rfl
  | cons x ts ih =>
    show dictGetI ((i, x) :: (enumPairs (i + 1) ts).map Prod.swap) k = none
    rw [dictGetI_cons, if_neg, ih (i + 1)]
    · simp only [List.length_cons] at h
      push_cast at h ⊢
      omega
    · simp only [List.length_cons] at h
      push_cast at h
      omega

/-! Invariants of vocabulary construction that hold for every input file:
keys are pairwise distinct and values are pairwise distinct. -/

theorem not_mem_fst_of_contains_false {d : List (String × Nat)} {k : String}
    (h : dictContains d k = false) : k ∉ d.map Prod.fst := by
  intro hm
  obtain ⟨p, hp, hpk⟩ := List.mem_map.mp hm
  have hany : d.any (fun p => p.1 == k) = true :=
    List.any_eq_true.mpr ⟨p, hp, by simp [hpk]⟩
  rw [dictContains] at h
  rw [h] at hany
  exact Bool.false_ne_true hany

theorem update_fst_eq (d : List (String × Nat)) (k : String) (i : Nat) :
    (d.map (fun p => if p.1 == k then (k, i) else p)).map Prod.fst = d.map Prod.fst := by
  induction d with
  | nil => rfl
  | cons q rest ih =>
    have hq1 : (if q.1 == k then ((k : String), i) else q).1 = q.1 := by
      by_cases hpk : (q.1 == k) = true
      · rw [if_pos hpk]
        exact (beq_iff_eq.mp hpk).symm
      · rw [if_neg hpk]
    show (if q.1 == k then (k, i) else q).1
        :: (rest.map (fun p => if p.1 == k then (k, i) else p)).map Prod.fst
      = q.1 :: rest.map Prod.fst
    rw [hq1, ih]

theorem update_snd_eq (d : List (String × Nat)) (k : String) (i : Nat) :
    (d.map (fun p => if p.1 == k then (k, i) else p)).map Prod.snd
      = d.map (fun p => if p.1 == k then i else p.2) := by
  induction d with
  | nil => rfl
  | cons q rest ih =>
    have hq2 : (if q.1 == k then ((k : String), i) else q).2
        = (if q.1 == k then i else q.2) := by
      by_cases hpk : (q.1 == k) = true
      · rw [if_pos hpk, if_pos hpk]
      · rw [if_neg hpk, if_neg hpk]
    show (if q.1 == k then (k, i) else q).2
        :: (rest.map (fun p => if p.1 == k then (k, i) else p)).map Prod.snd
      = (if q.1 == k then i else q.2) :: rest.map (fun p => if p.1 == k then i else p.2)
    rw [hq2, ih]

theorem update_values_invariant (k : String) (i : Nat) (d : List (String × Nat)) :
    (d.map Prod.fst).Nodup →
    (d.map Prod.snd).Nodup →
    (∀ v ∈ d.map Prod.snd, v < i) →
    ((d.map (fun p => if p.1 == k then i else p.2)).Nodup ∧
     ∀ v ∈ d.map (fun p => if p.1 == k then i else p.2), v < i + 1) := by
  induction d with
  | nil => intro _ _ _; exact ⟨List.nodup_nil, by simp⟩
  | cons q rest ih =>
    intro hk hv hlt
    rcases q with ⟨a, b⟩
    have hk' : a ∉ rest.map Prod.fst ∧ (rest.map Prod.fst).Nodup :=
      List.nodup_cons.mp (by simpa using hk)
    have hv' : b ∉ rest.map Prod.snd ∧ (rest.map Prod.snd).Nodup :=
      List.nodup_cons.mp (by simpa using hv)
    have hltb : b < i := hlt b (by simp)
    have hltrest : ∀ v ∈ rest.map Prod.snd, v < i :=
      fun v hm => hlt v (by simp [hm])
    by_cases hak : ((a, b).1 == k) = true
    · have hak' : a = k := by simpa using hak
      have hrest : rest.map (fun p => if p.1 == k then i else p.2)
          = rest.map Prod.snd := by
        apply List.map_congr_left
        intro p hp
        have hpk : ¬(p.1 == k) = true := by
          simp only [beq_iff_eq]
          intro he
          apply hk'.1
          rw [hak', ← he]
          exact List.mem_map_of_mem Prod.fst hp
        rw [if_neg hpk]
      have hhead : ((a, b) :: rest).map (fun p => if p.1 == k then i else p.2)
          = i :: rest.map (fun p => if p.1 == k then i else p.2) := by
        show (if a == k then i else b) :: _ = i :: _
        rw [if_pos hak]
      rw [hhead, hrest]
      refine ⟨List.nodup_cons.mpr ⟨fun hm => ?_, hv'.2⟩, ?_⟩
      · exact absurd (hltrest i hm) (by omega)
      · intro v hm
        rcases List.mem_cons.mp hm with rfl | hm
        · omega
        · exact Nat.lt_succ_of_lt (hltrest v hm)
    · obtain ⟨ihn, ihb⟩ := ih hk'.2 hv'.2 hltrest
      have hhead : ((a, b) :: rest).map (fun p => if p.1 == k then i else p.2)
          = b :: rest.map (fun p => if p.1 == k then i else p.2) := by
        show (if a == k then i else b) :: _ = b :: _
        rw [if_neg hak]
      rw [hhead]
      refine ⟨List.nodup_cons.mpr ⟨fun hm => ?_, ihn⟩, ?_⟩
      · obtain ⟨p, hp, hpb⟩ := List.mem_map.mp hm
        by_cases hpk : (p.1 == k) = true
        · rw [if_pos hpk] at hpb
          omega
        · rw [if_neg hpk] at hpb
          exact hv'.1 (hpb ▸ List.mem_map_of_mem Prod.snd hp)
      · intro v hm
        rcases List.mem_cons.mp hm with rfl | hm
        · omega
        · exact ihb v hm

theorem dictInsert_invariant (d : List (String × Nat)) (k : String) (i : Nat)
    (hk : (d.map Prod.fst).Nodup) (hv : (d.map Prod.snd).Nodup)
    (hlt : ∀ v ∈ d.map Prod.snd, v < i) :
    ((dictInsert d k i).map Prod.fst).Nodup ∧
    ((dictInsert d k i).map Prod.snd).Nodup ∧
    (∀ v ∈ (dictInsert d k i).map Prod.snd, v < i + 1) := by
  rw [dictInsert]
  by_cases hc : dictContains d k = true
  · rw [if_pos hc, update_fst_eq, update_snd_eq]
    obtain ⟨hn, hb⟩ := update_values_invariant k i d hk hv hlt
    exact ⟨hk, hn, hb⟩
  · rw [if_neg hc]
    have hkm : k ∉ d.map Prod.fst :=
      not_mem_fst_of_contains_false (Bool.not_eq_true _ ▸ hc : dictContains d k = false)
    refine ⟨?_, ?_, ?_⟩
    · simp only [List.map_append]
      rw [List.nodup_append]
      exact ⟨hk, List.nodup_singleton k, by simpa using fun hm => hkm hm⟩
    · simp only [List.map_append]
      rw [List.nodup_append]
      refine ⟨hv, List.nodup_singleton i, ?_⟩
      simp only [List.map_cons, List.map_nil]
      intro v hm
      simp only [List.mem_singleton]
      intro he
      exact absurd (hlt v hm) (by omega)
    · intro v hm
      simp only [List.map_append] at hm
      rcases List.mem_append.mp hm with hm | hm
      · exact Nat.lt_succ_of_lt (hlt v hm)
      · simp at hm
        omega

theorem buildVocabAux_invariant (ls : List String) :
    ∀ (i : Nat) (d : List (String × Nat)),
    (d.map Prod.fst).Nodup →
    (d.map Prod.snd).Nodup →
    (∀ v ∈ d.map Prod.snd, v < i) →
    ((buildVocabAux d i ls).map Prod.fst).Nodup ∧
    ((buildVocabAux d i ls).map Prod.snd).Nodup := by
  induction ls with
  | nil => intro i d h1 h2 _; exact ⟨h1, h2⟩
  | cons l rest ih =>
    intro i d h1 h2 h3
    obtain ⟨g1, g2, g3⟩ := dictInsert_invariant d (pythonStrip l) i h1 h2 h3
    exact ih (i + 1) (dictInsert d (pythonStrip l) i) g1 g2 g3

theorem buildVocab_invariant (lines : List String) :
    ((buildVocab lines).map Prod.fst).Nodup ∧
    ((buildVocab lines).map Prod.snd).Nodup :=
  buildVocabAux_invariant lines 0 [] List.nodup_nil List.nodup_nil (by simp)

theorem buildReverse_eq_swap (vocab : List (String × Nat))
    (hvals : (vocab.map Prod.snd).Nodup) :
    buildReverse vocab = vocab.map Prod.swap := by
  rw [buildReverse, foldl_swapInsert_eq vocab [] hvals (fun p _ => rfl)]
  simp

theorem mem_of_dictGet_some {α β : Type} [BEq α] [LawfulBEq α] {d : List (α × β)}
    {k : α} {v : β} (h : dictGet d k = some v) : (k, v) ∈ d := by
  rw [dictGet] at h
  obtain ⟨q, hq, hv⟩ := Option.map_eq_some'.mp h
  have hqk : q.1 = k := by simpa using List.find?_some hq
  have hmem := List.mem_of_find?_eq_some hq
  have hqe : q = (k, v) := by
    rcases q with ⟨q1, q2⟩
    simp only at hqk hv
    rw [hqk, hv]
  exact hqe ▸ hmem

theorem dictGetI_swap_of_mem (vocab : List (String × Nat)) (t : String) (v : Nat)
    (hvals : (vocab.map Prod.snd).Nodup) (hm : (t, v) ∈ vocab) :
    dictGetI (vocab.map Prod.swap) (v : Int) = some t := by
  induction vocab with
  | nil => simp at hm
  | cons q d ih =>
    rcases q with ⟨a, b⟩
    have hvals' : b ∉ d.map Prod.snd ∧ (d.map Prod.snd).Nodup :=
      List.nodup_cons.mp (by simpa using hvals)
    rw [show ((a, b) :: d).map Prod.swap = (b, a) :: d.map Prod.swap from rfl, dictGetI_cons]
    rcases List.mem_cons.mp hm with hq | hmem
    · injection hq with ha hb
      subst ha
      subst hb
      rw [if_pos rfl]
    · by_cases hbv : (b : Int) = (v : Int)
      · have hb : b = v := by exact_mod_cast hbv
        subst hb
        exact absurd (List.mem_map_of_mem Prod.snd hmem) hvals'.1
      · rw [if_neg hbv]
        exact ih hvals'.2 hmem

/-! Fold lemmas for get_vocab. -/

theorem range'_foldl_insert (f : Nat → String) (ss : List String) :
    ∀ (i : Nat) (d : List (String × Nat)),
    ss.Nodup →
    (∀ t ∈ ss, dictContains d t = false) →
    (∀ j (hj : j < ss.length), f (i + j) = ss.get ⟨j, hj⟩) →
    (List.range' i ss.length).foldl (fun d j => dictInsert d (f j) j) d
      = d ++ enumPairs i ss := by
  induction ss with
  | nil => intro i d _ _ _; simp [enumPairs]
  | cons x ts ih =>
    intro i d hnd hd hf
    rw [List.length_cons, List.range'_succ]
    show (List.range' (i + 1) ts.length).foldl _ (dictInsert d (f i) i) = _
    have hfi : f i = x := by simpa using hf 0 (by simp)
    rw [hfi, dictInsert_of_not_contains _ (hd x (List.mem_cons_self _ _))]
    rw [ih (i + 1) (d ++ [(x, i)]) (List.nodup_cons.mp hnd).2 ?_ ?_]
    · simp [enumPairs_cons]
    · intro t ht
      rw [dictContains_append_single]
      have h1 := hd t (List.mem_cons_of_mem _ ht)
      have h2 : ¬(x == t) := by
        simp only [beq_iff_eq]
        exact fun he => (List.nodup_cons.mp hnd).1 (he ▸ ht)
      rw [h1, Bool.eq_false_iff.mpr h2]
      rfl
    · intro j hj
      have harith : (i + 1) + j = i + (j + 1) := by omega
      rw [harith, hf (j + 1) (by simpa using hj), List.get_cons_succ]

theorem enumPairs_foldl_overlay (n : Nat) (ts : List String) :
    ∀ (i : Nat) (d : List (String × Nat)),
    ts.Nodup →
    (∀ t ∈ ts, dictContains d t = false) →
    (enumPairs i ts).foldl (fun d p => dictInsert d p.1 (p.2 + n)) d
      = d ++ enumPairs (i + n) ts := by
  induction ts with
  | nil => intro i d _ _; simp [enumPairs]
  | cons x ks ih =>
    intro i d hnd hd
    show (enumPairs (i + 1) ks).foldl _ (dictInsert d x (i + n)) = _
    rw [dictInsert_of_not_contains _ (hd x (List.mem_cons_self _ _))]
    rw [ih (i + 1) (d ++ [(x, i + n)]) (List.nodup_cons.mp hnd).2 ?_]
    · have harith : (i + 1) + n = (i + n) + 1 := by omega
      rw [harith]
      simp [enumPairs_cons]
    · intro t ht
      rw [dictContains_append_single]
      have h1 := hd t (List.mem_cons_of_mem _ ht)
      have h2 : ¬(x == t) := by
        simp only [beq_iff_eq]
        exact fun he => (List.nodup_cons.mp hnd).1 (he ▸ ht)
      rw [h1, Bool.eq_false_iff.mpr h2]
      rfl

theorem token_to_id_of_some (vocab : List (String × Nat)) (t : String) (v : Nat)
    (hv : dictGet vocab t = some v) :
    _convert_token_to_id vocab t = some (v + 1) := by
  have hc : dictContains vocab t = true := by
    rw [dictContains_eq_isSome, hv]
    rfl
  rw [_convert_token_to_id, if_pos hc, hv]
  rfl

theorem token_to_id_of_none (vocab : List (String × Nat)) (t : String)
    (hv : dictGet vocab t = none) :
    _convert_token_to_id vocab t = dictGet vocab "[UNK]" := by
  have hc : dictContains vocab t = false := by
    rw [dictContains_eq_isSome, hv]
    rfl
  rw [_convert_token_to_id, if_neg (by simp [hc])]

/-! Claim theorems. -/

/-- C1: for every token t, if t is a key of the vocabulary then
_convert_token_to_id returns its stored index plus one; otherwise it returns
the raw vocabulary entry of the unknown token, with no offset applied. -/
theorem token_to_id_offset (vocab : List (String × Nat)) (t : String) :
    (∀ v : Nat, dictGet vocab t = some v → _convert_token_to_id vocab t = some (v + 1)) ∧
    (dictGet vocab t = none → _convert_token_to_id vocab t = dictGet vocab "[UNK]") :=
  ⟨fun v hv => token_to_id_of_some vocab t v hv,
   fun hv => token_to_id_of_none vocab t hv⟩

/-- Witness for token_to_id_offset at a concrete vocabulary. -/
theorem token_to_id_offset_w :
    _convert_token_to_id (buildVocab ["a", "[UNK]"]) "a" = some 1 ∧
    _convert_token_to_id (buildVocab ["a", "[UNK]"]) "zz"
      = dictGet (buildVocab ["a", "[UNK]"]) "[UNK]" :=
  ⟨(token_to_id_offset (buildVocab ["a", "[UNK]"]) "a").1 0 (by decide),
   (token_to_id_offset (buildVocab ["a", "[UNK]"]) "zz").2 (by decide)⟩

/-- C4: when the unknown token is absent from the vocabulary, converting an
out-of-vocabulary token yields the sentinel none (Python None) rather than
silently producing a valid-looking id. -/
theorem token_to_id_missing_unk (vocab : List (String × Nat)) (t : String)
    (hu : dictGet vocab "[UNK]" = none) (ht : dictGet vocab t = none) :
    _convert_token_to_id vocab t = none := by
  have hc : dictContains vocab t = false := by
    rw [dictContains_eq_isSome, ht]
    rfl
  rw [_convert_token_to_id, if_neg (by simp [hc]), hu]

/-- Witness for token_to_id_missing_unk at a concrete vocabulary. -/
theorem token_to_id_missing_unk_w :
    _convert_token_to_id (buildVocab ["a"]) "b" = none :=
  token_to_id_missing_unk (buildVocab ["a"]) "b" (by decide) (by decide)

/-- C5: with add_special_tokens set, tokenize inserts the eos token as the
first element exactly when it is absent from the raw token sequence, and
appends the end-of-text token as the last element exactly when it is absent
from the raw token sequence (the two special tokens being distinct). -/
theorem tokenize_special_insertion (wt : String → List String) (eos text : String)
    (h : eos ≠ "<end_of_text>") :
    tokenize wt eos text true =
      (if "<end_of_text>" ∈ tokenizeRaw wt eos text
       then (if eos ∈ tokenizeRaw wt eos text then tokenizeRaw wt eos text
             else eos :: tokenizeRaw wt eos text)
       else (if eos ∈ tokenizeRaw wt eos text then tokenizeRaw wt eos text
             else eos :: tokenizeRaw wt eos text) ++ ["<end_of_text>"]) := by
  have hne : ¬("<end_of_text>" = eos) := fun he => h he.symm
  unfold tokenize
  by_cases he : eos ∈ tokenizeRaw wt eos text
  · simp [he]
  · simp [he, hne]

/-- Witness for tokenize_special_insertion at a concrete splitter and text. -/
theorem tokenize_special_insertion_w :
    tokenize (fun s => s.splitOn " ") "<s>" "hi" true =
      (if "<end_of_text>" ∈ tokenizeRaw (fun s => s.splitOn " ") "<s>" "hi"
       then (if "<s>" ∈ tokenizeRaw (fun s => s.splitOn " ") "<s>" "hi"
             then tokenizeRaw (fun s => s.splitOn " ") "<s>" "hi"
             else "<s>" :: tokenizeRaw (fun s => s.splitOn " ") "<s>" "hi")
       else (if "<s>" ∈ tokenizeRaw (fun s => s.splitOn " ") "<s>" "hi"
             then tokenizeRaw (fun s => s.splitOn " ") "<s>" "hi"
             else "<s>" :: tokenizeRaw (fun s => s.splitOn " ") "<s>" "hi")
         ++ ["<end_of_text>"]) :=
  tokenize_special_insertion (fun s => s.splitOn " ") "<s>" "hi" (by decide)

/-- C9 counterexample: tokenize is not free of file or network input/output;
already on a trivial input it performs the external resource download of
line 78 (nltk.download), so its effect trace is nonempty. -/
theorem tokenize_effects_cex :
    (tokenizeOp (fun t => [t]) ⟨[("a", 0)], [(0, "a")], "<s>"⟩ "hi" false).1.2 ≠ [] := by
  decide

/-- C9 (amended): every operation leaves the tokenizer state unchanged;
token-to-id, id-to-token, vocab_size and get_vocab perform no effects, while
tokenize performs exactly the punkt resource download on every call. -/
theorem ops_pure_frame (wt : String → List String) (s : TokState) (text : String)
    (b : Bool) (tok : String) (i : Int) (added : List (String × Nat)) :
    (tokenizeOp wt s text b).2 = s ∧
    (convert_token_to_idOp s tok).2 = s ∧
    (convert_id_to_tokenOp s i).2 = s ∧
    (vocab_sizeOp s).2 = s ∧
    (get_vocabOp s added).2 = s ∧
    (convert_token_to_idOp s tok).1.2 = [] ∧
    (convert_id_to_tokenOp s i).1.2 = [] ∧
    (vocab_sizeOp s).1.2 = [] ∧
    (get_vocabOp s added).1.2 = [] ∧
    (tokenizeOp wt s text b).1.2 = [Effect.downloadResource "punkt"] :=
  ⟨rfl, rfl, rfl, rfl, rfl, rfl, rfl, rfl, rfl, rfl⟩

/-- C2: for every vocabulary the constructor can build, every stored token
round-trips: converting it to its external id and back yields the token. -/
theorem roundtrip_vocab_token (lines : List String) (t : String) (v : Nat)
    (hv : dictGet (buildVocab lines) t = some v) :
    _convert_token_to_id (buildVocab lines) t = some (v + 1) ∧
    _convert_id_to_token (buildReverse (buildVocab lines)) ((v : Int) + 1) = t := by
  have hvals := (buildVocab_invariant lines).2
  refine ⟨token_to_id_of_some _ t v hv, ?_⟩
  rw [buildReverse_eq_swap _ hvals, _convert_id_to_token]
  have hkey : (v : Int) + 1 - 1 = (v : Int) := by ring
  rw [hkey, dictGetI_swap_of_mem _ t v hvals (mem_of_dictGet_some hv), Option.getD_some]

/-- Witness for roundtrip_vocab_token at a concrete vocabulary, one built
from a file that even contains a duplicate line. -/
theorem roundtrip_vocab_token_w :
    _convert_token_to_id (buildVocab ["a", "a", "b"]) "a" = some 2 ∧
    _convert_id_to_token (buildReverse (buildVocab ["a", "a", "b"])) (((1 : Nat) : Int) + 1)
      = "a" :=
  roundtrip_vocab_token ["a", "a", "b"] "a" 1 (by decide)

/-- C3: id-to-token conversion looks up index minus one in the reverse
vocabulary and falls back to the literal unknown-token string; in particular
id 0 always yields it, and id 99999 yields it on any duplicate-free
vocabulary of fewer than 99999 lines. -/
theorem id_to_token_spec (rev : List (Nat × String)) (index : Int) (lines : List String)
    (hn : (lines.map pythonStrip).Nodup) (hsize : lines.length < 99999) :
    (∀ tok, dictGetI rev (index - 1) = some tok → _convert_id_to_token rev index = tok) ∧
    (dictGetI rev (index - 1) = none → _convert_id_to_token rev index = "[UNK]") ∧
    _convert_id_to_token rev 0 = "[UNK]" ∧
    _convert_id_to_token (buildReverse (buildVocab lines)) 99999 = "[UNK]" := by
  refine ⟨fun tok htok => ?_, fun hnone => ?_, ?_, ?_⟩
  · rw [_convert_id_to_token, htok, Option.getD_some]
  · rw [_convert_id_to_token, hnone, Option.getD_none]
  · rw [_convert_id_to_token, dictGetI_neg rev (0 - 1) (by norm_num), Option.getD_none]
  · rw [buildVocab_eq lines hn, buildReverse_enumPairs, _convert_id_to_token]
    have hcond : ((99999 : Int) - 1 < ((0 : Nat) : Int)) ∨
        (((0 : Nat) : Int) + (lines.map pythonStrip).length ≤ (99999 : Int) - 1) := by
      right
      rw [List.length_map]
      push_cast
      omega
    rw [dictGetI_swap_none 0 _ _ hcond, Option.getD_none]

/-- Witness for id_to_token_spec at a concrete reverse vocabulary. -/
theorem id_to_token_spec_w :
    _convert_id_to_token [(0, "x")] 1 = "x" ∧
    _convert_id_to_token (buildReverse (buildVocab ["a"])) 99999 = "[UNK]" :=
  ⟨(id_to_token_spec [(0, "x")] 1 ["a"] (by decide) (by decide)).1 "x" (by decide),
   (id_to_token_spec [(0, "x")] 1 ["a"] (by decide) (by decide)).2.2.2⟩

/-- C6 counterexample: on the two-line file consisting of a line that is the
letter a with leading whitespace followed by a duplicate line a, the built
vocabulary does not contain line 0's trailing-stripped content at index 0
(the code strips leading whitespace as well), and no entry at all carries
index 0 (the duplicate overwrote it), so the indices are not dense,
contiguous and zero-based. -/
theorem buildVocab_claim_cex :
    dictGet (buildVocab [" a", "a"]) (stripTrailing " a") = none ∧
    (∀ p ∈ buildVocab [" a", "a"], p.2 ≠ 0) := by
  decide

/-- C6 (amended): construction assigns each line's content, stripped of
leading and trailing whitespace, an index; when the stripped lines are
pairwise distinct, each stripped line receives exactly its zero-based line
number and the indices are dense, contiguous, zero-based and unique. -/
theorem buildVocab_indexing (lines : List String)
    (hn : (lines.map pythonStrip).Nodup) :
    (buildVocab lines).map Prod.fst = lines.map pythonStrip ∧
    (buildVocab lines).map Prod.snd = List.range lines.length ∧
    ∀ j (hj : j < lines.length),
      dictGet (buildVocab lines) (pythonStrip (lines.get ⟨j, hj⟩)) = some j := by
  rw [buildVocab_eq lines hn]
  refine ⟨enumPairs_map_fst 0 _, ?_, ?_⟩
  · rw [enumPairs_map_snd, List.length_map, List.range_eq_range']
  · intro j hj
    have hj' : j < (lines.map pythonStrip).length := by
      rw [List.length_map]
      exact hj
    have hg : (lines.map pythonStrip).get ⟨j, hj'⟩ = pythonStrip (lines.get ⟨j, hj⟩) := by
      simp [List.getElem_map]
    rw [← hg, dictGet_enumPairs_get 0 _ hn j hj']
    simp

/-- Witness for buildVocab_indexing at a concrete duplicate-free file. -/
theorem buildVocab_indexing_w :
    (buildVocab ["a", "b"]).map Prod.fst = ["a", "b"].map pythonStrip ∧
    dictGet (buildVocab ["a", "b"]) (pythonStrip (["a", "b"].get ⟨1, by decide⟩))
      = some 1 :=
  ⟨(buildVocab_indexing ["a", "b"] (by decide)).1,
   (buildVocab_indexing ["a", "b"] (by decide)).2.2 1 (by decide)⟩

/-- C7 counterexample: the vocabulary built from a file with two identical
lines maps the token to index 1; saving writes the single key and reloading
maps it to index 0, so the reloaded mapping differs. -/
theorem save_reload_cex :
    buildVocab (save_vocabulary (buildVocab ["a", "a"])) ≠ buildVocab ["a", "a"] := by
  decide

/-- C7 (amended): for every vocabulary built from a file whose stripped lines
are pairwise distinct, saving the vocabulary and rebuilding from the written
lines reproduces the identical token-to-index mapping. -/
theorem save_reload_roundtrip (lines : List String)
    (hn : (lines.map pythonStrip).Nodup) :
    buildVocab (save_vocabulary (buildVocab lines)) = buildVocab lines := by
  have hn2 : ((lines.map pythonStrip).map pythonStrip).Nodup := by
    rw [map_strip_strip]
    exact hn
  rw [buildVocab_eq lines hn, save_vocabulary, enumPairs_map_fst,
    buildVocab_eq (lines.map pythonStrip) hn2, map_strip_strip]

/-- Witness for save_reload_roundtrip at a concrete duplicate-free file. -/
theorem save_reload_roundtrip_w :
    buildVocab (save_vocabulary (buildVocab ["a", "b"])) = buildVocab ["a", "b"] :=
  save_reload_roundtrip ["a", "b"] (by decide)

/-- C10: for a duplicate-free vocabulary holding the unknown token at an
internal index u of at least 1, an out-of-vocabulary token converts to the
unknown token's raw index u, and converting that id back yields the
vocabulary token stored at internal index u - 1, which is not the unknown
token: the out-of-vocabulary round trip lands on the token preceding the
unknown token. -/
theorem oov_roundtrip_collision (lines : List String) (t : String) (u : Nat)
    (hn : (lines.map pythonStrip).Nodup)
    (hu : dictGet (buildVocab lines) "[UNK]" = some u)
    (hu1 : 1 ≤ u)
    (ht : dictGet (buildVocab lines) t = none) :
    _convert_token_to_id (buildVocab lines) t = some u ∧
    ∃ s, dictGet (buildVocab lines) s = some (u - 1) ∧
      _convert_id_to_token (buildReverse (buildVocab lines)) (u : Int) = s ∧
      s ≠ "[UNK]" := by
  constructor
  · rw [token_to_id_of_none _ t ht, hu]
  · have h0 := buildVocab_eq lines hn
    rw [h0] at hu
    obtain ⟨j, hj, huj, hgu⟩ := dictGet_enumPairs_some 0 _ _ u hu
    have hju : j = u := by omega
    subst hju
    have hj1 : j - 1 < (lines.map pythonStrip).length := by omega
    refine ⟨(lines.map pythonStrip).get ⟨j - 1, hj1⟩, ?_, ?_, ?_⟩
    · rw [h0, dictGet_enumPairs_get 0 _ hn (j - 1) hj1]
      congr 1
      omega
    · rw [h0, buildReverse_enumPairs, _convert_id_to_token]
      have hkey : (j : Int) - 1 = ((0 + (j - 1) : Nat) : Int) := by omega
      rw [hkey, dictGetI_swap_get 0 _ (j - 1) hj1, Option.getD_some]
    · intro he
      have hgg : (lines.map pythonStrip).get ⟨j - 1, hj1⟩
          = (lines.map pythonStrip).get ⟨j, hj⟩ := by
        rw [he, hgu]
      have hfin := (List.Nodup.get_inj_iff hn).mp hgg
      have : j - 1 = j := congrArg Fin.val hfin
      omega

/-- Witness for oov_roundtrip_collision at a concrete vocabulary. -/
theorem oov_roundtrip_collision_w :
    _convert_token_to_id (buildVocab ["a", "b", "[UNK]"]) "zz" = some 2 ∧
    ∃ s, dictGet (buildVocab ["a", "b", "[UNK]"]) s = some (2 - 1) ∧
      _convert_id_to_token (buildReverse (buildVocab ["a", "b", "[UNK]"]))
        ((2 : Nat) : Int) = s ∧
      s ≠ "[UNK]" :=
  oov_roundtrip_collision ["a", "b", "[UNK]"] "zz" 2
    (by decide) (by decide) (by decide) (by decide)

/-- C8: for a duplicate-free base vocabulary and an added-tokens registry
assigning positional ids in registration order to tokens outside the base
vocabulary, get_vocab returns the base zero-based view (reconstructed through
the id-to-token accessor) followed by the added tokens with ids continuing
from the base view's size upward, in registration order. -/
theorem get_vocab_view (lines addedNames : List String)
    (hn : (lines.map pythonStrip).Nodup)
    (ha : addedNames.Nodup)
    (hf : ∀ t ∈ addedNames, dictGet (buildVocab lines) t = none) :
    get_vocab (buildVocab lines) (buildReverse (buildVocab lines)) (enumPairs 0 addedNames)
      = buildVocab lines ++ enumPairs (vocab_size (buildVocab lines)) addedNames := by
  have h0 := buildVocab_eq lines hn
  have hvs : vocab_size (enumPairs 0 (lines.map pythonStrip))
      = (lines.map pythonStrip).length := by
    rw [vocab_size, enumPairs_length]
  have hfresh : ∀ t ∈ addedNames,
      dictContains (enumPairs 0 (lines.map pythonStrip)) t = false := by
    intro t htm
    rw [← h0, dictContains_eq_isSome, hf t htm]
    rfl
  have hbase : (List.range (vocab_size (enumPairs 0 (lines.map pythonStrip)))).foldl
      (fun d (i : Nat) => dictInsert d
        (_convert_id_to_token ((enumPairs 0 (lines.map pythonStrip)).map Prod.swap)
          ((i : Int) + 1)) i) []
      = enumPairs 0 (lines.map pythonStrip) := by
    rw [hvs, List.range_eq_range']
    have hb := range'_foldl_insert
      (fun i => _convert_id_to_token
        ((enumPairs 0 (lines.map pythonStrip)).map Prod.swap) ((i : Int) + 1))
      (lines.map pythonStrip) 0 [] hn (fun t _ => rfl) ?_
    · exact hb
    · intro j hj
      show _convert_id_to_token _ (((0 + j : Nat) : Int) + 1) = _
      rw [_convert_id_to_token]
      have hkey : ((0 + j : Nat) : Int) + 1 - 1 = ((0 + j : Nat) : Int) := by ring
      rw [hkey, dictGetI_swap_get 0 (lines.map pythonStrip) j hj, Option.getD_some]
  rw [h0, buildReverse_enumPairs]
  simp only [get_vocab]
  rw [hbase, enumPairs_length]
  have hov := enumPairs_foldl_overlay (lines.map pythonStrip).length addedNames 0
    (enumPairs 0 (lines.map pythonStrip)) ha hfresh
  rw [hov, hvs, Nat.zero_add]

/-- Witness for get_vocab_view at a concrete vocabulary and added tokens. -/
theorem get_vocab_view_w :
    get_vocab (buildVocab ["a"]) (buildReverse (buildVocab ["a"])) (enumPairs 0 ["x", "y"])
      = buildVocab ["a"] ++ enumPairs (vocab_size (buildVocab ["a"])) ["x", "y"] :=
  get_vocab_view ["a"] ["x", "y"] (by decide) (by decide) (by decide)

end NlktTokenizer
